import Mathlib

/-!
Shallow embedding of the write/ingestion core of a full-text search engine:
the Document data model (`src/schema/document.rs`), its binary serialization,
and the prepared-commit handle (`src/indexer/prepared_commit.rs`).

Conventions:
* Rust `u64`/`i64`/`f64`/timestamp payloads carry no arithmetic here, only
  serialization, so each is modelled by its 8-byte bit pattern, a
  `Fin (2 ^ 64)`.
* Byte streams are `List Nat`; every byte produced by the encoders is < 256
  by construction.
* Text, facet paths and raw byte payloads are modelled as their byte
  contents (`List Nat`).
* A field identifier is an opaque totally ordered handle, modelled as `Nat`.
  (The Rust name `Field` collides with Mathlib's `Field` class, hence
  `Nat`.)
-/

/-- Opstamp: logical sequence number (`u64` in the source). -/
abbrev Opstamp := Nat

/-- One token descriptor of a pre-tokenized text value
(`tokenizer::Token`: offsets, position, text, position length). -/
structure Token where
  offset_from : Nat
  offset_to : Nat
  position : Nat
  text : List Nat
  position_length : Nat
deriving DecidableEq, Repr

/-- Pre-tokenized text: the raw text plus its token descriptors
(`tokenizer::PreTokenizedString`). -/
structure PreTokenizedString where
  text : List Nat
  tokens : List Token
deriving DecidableEq, Repr

/-- The closed tagged union over the field value domain (`schema::Value`).
Numeric/date variants carry their 8-byte bit pattern. -/
inductive Value where
  | Str : List Nat → Value
  | PreTokStr : PreTokenizedString → Value
  | U64 : Fin (2 ^ 64) → Value
  | I64 : Fin (2 ^ 64) → Value
  | F64 : Fin (2 ^ 64) → Value
  | Date : Fin (2 ^ 64) → Value
  | Facet : List Nat → Value
  | Bytes : List Nat → Value
deriving DecidableEq, Repr

/-- Returns true iff the value is the pre-tokenized-text variant. -/
def Value.isPreTokStr : Value → Bool
  | Value.PreTokStr _ => true
  | _ => false

/-- A (field identifier, value) pair (`schema::FieldValue`). -/
structure FieldValue where
  field : Nat
  value : Value
deriving DecidableEq, Repr

/-- `FieldValue::new(field, value)`. -/
def FieldValue.new (field : Nat) (value : Value) : FieldValue :=
  ⟨field, value⟩

/-- A Document: an ordered sequence of field-value pairs in which one field
may appear more than once (`schema::Document`). -/
structure Document where
  field_values : List FieldValue
deriving DecidableEq, Repr

/-- `Document::new()` / `Document::default()`: the empty document. -/
def Document.new : Document := ⟨[]⟩

/-- `Document::len`: number of (field, value) pairs. -/
def Document.len (d : Document) : Nat :=
  d.field_values.length

/-- `Document::is_empty`. -/
def Document.is_empty (d : Document) : Bool :=
  d.field_values.isEmpty

/-- `Document::add`: pushes the field value at the end of the list. -/
def Document.add (d : Document) (field_value : FieldValue) : Document :=
  ⟨d.field_values ++ [field_value]⟩

/-- `Document::filter_fields`: retains only the pairs whose field satisfies
the predicate (`Vec::retain` keeps original relative order). -/
def Document.filter_fields (d : Document) (predicate : Nat → Bool) : Document :=
  ⟨d.field_values.filter (fun field_value => predicate field_value.field)⟩

/-- `Document::get_all`: all values associated with the given field, in
original relative order. -/
def Document.get_all (d : Document) (field : Nat) : List Value :=
  (d.field_values.filter (fun field_value => field_value.field == field)).map
    FieldValue.value

/-- `Document::get_first`: the first value associated with the given field. -/
def Document.get_first (d : Document) (field : Nat) : Option Value :=
  (d.field_values.find? (fun field_value => field_value.field == field)).map
    FieldValue.value

/-- `Document::prepare_for_store`: in place, every `PreTokStr` value becomes
a `Str` value holding just the raw text; all other entries are untouched. -/
def Document.prepare_for_store (d : Document) : Document :=
  ⟨d.field_values.map (fun field_value =>
    match field_value.value with
    | Value.PreTokStr pre_tokenized_text =>
        FieldValue.new field_value.field (Value.Str pre_tokenized_text.text)
    | _ => field_value)⟩

/-- Document equality (`PartialEq for Document`): order-insensitive multiset
equality of the field-value lists. The source sorts both lists with the
derived total order (whose definition lives outside `src/`) and compares;
for any total order that is exactly equality of the underlying multisets,
modelled here as `List.Perm`. -/
def Document.equiv (d1 d2 : Document) : Prop :=
  d1.field_values.Perm d2.field_values

/-!
Binary serialization. The source for `Document` is
`BinarySerializable for Document`:
`serialize = VInt(len) ‖ serialize(FieldValue)*len`; `deserialize` reads the
`VInt` count and then that many `FieldValue`s. `VInt` and the `FieldValue`
and `Value` codecs live outside `src/`; they are modelled from the spec:
a little-endian base-128 varint, and
`FieldValue = Varint(field_id) ‖ tag_byte ‖ value_bytes` with fixed-width
bytes for numeric/date variants, length-prefixed bytes for
string/bytes/facet, and a composite length-prefixed encoding for
pre-tokenized text including its token list. A deserializer consumes a
prefix of the stream and returns the decoded value together with the rest,
or `none` on malformed or truncated input.
-/

/-- Modelled from the spec: `VarintLE` encoding of an unsigned integer
(7 payload bits per byte, little-endian, high bit marks continuation). -/
def vintEncode (n : Nat) : List Nat :=
  if h : n < 128 then [n]
  else (128 + n % 128) :: vintEncode (n / 128)
decreasing_by exact Nat.div_lt_self (by omega) (by omega)

/-- Modelled from the spec: `VarintLE` decoding; fails on an empty stream or
a stream ending inside a continuation run. -/
def vintDecode : List Nat → Option (Nat × List Nat)
  | [] => none
  | b :: rest =>
    if b < 128 then some (b, rest)
    else
      match vintDecode rest with
      | some (v, r) => some (b % 128 + 128 * v, r)
      | none => none

/-- Reads exactly `n` bytes from the stream, failing if fewer are left. -/
def readBytes : Nat → List Nat → Option (List Nat × List Nat)
  | 0, s => some ([], s)
  | _ + 1, [] => none
  | n + 1, b :: s =>
    match readBytes n s with
    | some (bs, rest) => some (b :: bs, rest)
    | none => none

/-- Modelled from the spec: fixed-width 8-byte little-endian encoding of a
64-bit bit pattern. -/
def u64Encode (x : Fin (2 ^ 64)) : List Nat :=
  [x.val % 256, x.val / 256 % 256, x.val / 256 ^ 2 % 256, x.val / 256 ^ 3 % 256,
   x.val / 256 ^ 4 % 256, x.val / 256 ^ 5 % 256, x.val / 256 ^ 6 % 256,
   x.val / 256 ^ 7 % 256]

/-- Modelled from the spec: fixed-width 8-byte little-endian decoding of a
64-bit bit pattern; fails if fewer than 8 bytes are left. -/
def u64Decode : List Nat → Option (Fin (2 ^ 64) × List Nat)
  | b0 :: b1 :: b2 :: b3 :: b4 :: b5 :: b6 :: b7 :: rest =>
    some (⟨(b0 + 256 * b1 + 256 ^ 2 * b2 + 256 ^ 3 * b3 + 256 ^ 4 * b4 +
            256 ^ 5 * b5 + 256 ^ 6 * b6 + 256 ^ 7 * b7) % 2 ^ 64,
           Nat.mod_lt _ (by norm_num)⟩, rest)
  | _ => none

/-- Length-prefixed byte payload: `Varint(len) ‖ bytes`. -/
def bytesEncode (bs : List Nat) : List Nat :=
  vintEncode bs.length ++ bs

/-- Decodes a length-prefixed byte payload. -/
def bytesDecode (s : List Nat) : Option (List Nat × List Nat) :=
  match vintDecode s with
  | some (n, r) => readBytes n r
  | none => none

/-- Modelled from the spec: one token descriptor of a pre-tokenized text
value, encoded as varints for the numeric fields and a length-prefixed text
span. -/
def Token.serialize (t : Token) : List Nat :=
  vintEncode t.offset_from ++ vintEncode t.offset_to ++ vintEncode t.position ++
    bytesEncode t.text ++ vintEncode t.position_length

/-- Decodes one token descriptor. -/
def Token.deserialize (s : List Nat) : Option (Token × List Nat) :=
  match vintDecode s with
  | none => none
  | some (offset_from, s1) =>
    match vintDecode s1 with
    | none => none
    | some (offset_to, s2) =>
      match vintDecode s2 with
      | none => none
      | some (position, s3) =>
        match bytesDecode s3 with
        | none => none
        | some (text, s4) =>
          match vintDecode s4 with
          | none => none
          | some (position_length, s5) =>
            some (⟨offset_from, offset_to, position, text, position_length⟩, s5)

/-- Decodes a counted sequence of token descriptors. -/
def tokensDecode : Nat → List Nat → Option (List Token × List Nat)
  | 0, s => some ([], s)
  | n + 1, s =>
    match Token.deserialize s with
    | none => none
    | some (t, r) =>
      match tokensDecode n r with
      | none => none
      | some (ts, rest) => some (t :: ts, rest)

/-- Modelled from the spec: tag byte selecting the active `Value` variant.
The spec fixes only that the tag is one byte and distinguishes the
variants; the concrete numbering is chosen here. -/
def Value.tag : Value → Nat
  | Value.Str _ => 0
  | Value.PreTokStr _ => 1
  | Value.U64 _ => 2
  | Value.I64 _ => 3
  | Value.F64 _ => 4
  | Value.Date _ => 5
  | Value.Facet _ => 6
  | Value.Bytes _ => 7

/-- Modelled from the spec: `tag_byte ‖ value_bytes`; fixed-width payloads
for numeric/date, length-prefixed for string/bytes/facet, and a composite
length-prefixed encoding for pre-tokenized text including its token list. -/
def Value.serialize (v : Value) : List Nat :=
  v.tag ::
    match v with
    | Value.Str text => bytesEncode text
    | Value.PreTokStr p =>
        bytesEncode p.text ++ vintEncode p.tokens.length ++
          (p.tokens.map Token.serialize).flatten
    | Value.U64 x => u64Encode x
    | Value.I64 x => u64Encode x
    | Value.F64 x => u64Encode x
    | Value.Date x => u64Encode x
    | Value.Facet path => bytesEncode path
    | Value.Bytes bs => bytesEncode bs

/-- Decodes a `Value` from its tag byte and payload; fails on an unknown
tag or a malformed payload. -/
def Value.deserialize : List Nat → Option (Value × List Nat)
  | [] => none
  | tag :: s =>
    if tag = 0 then
      match bytesDecode s with
      | some (text, rest) => some (Value.Str text, rest)
      | none => none
    else if tag = 1 then
      match bytesDecode s with
      | none => none
      | some (text, s1) =>
        match vintDecode s1 with
        | none => none
        | some (n, s2) =>
          match tokensDecode n s2 with
          | none => none
          | some (tokens, rest) => some (Value.PreTokStr ⟨text, tokens⟩, rest)
    else if tag = 2 then
      match u64Decode s with
      | some (x, rest) => some (Value.U64 x, rest)
      | none => none
    else if tag = 3 then
      match u64Decode s with
      | some (x, rest) => some (Value.I64 x, rest)
      | none => none
    else if tag = 4 then
      match u64Decode s with
      | some (x, rest) => some (Value.F64 x, rest)
      | none => none
    else if tag = 5 then
      match u64Decode s with
      | some (x, rest) => some (Value.Date x, rest)
      | none => none
    else if tag = 6 then
      match bytesDecode s with
      | some (path, rest) => some (Value.Facet path, rest)
      | none => none
    else if tag = 7 then
      match bytesDecode s with
      | some (bs, rest) => some (Value.Bytes bs, rest)
      | none => none
    else none

/-- Modelled from the spec: `FieldValue = Varint(field_id) ‖ tag_byte ‖
value_bytes`. -/
def FieldValue.serialize (fv : FieldValue) : List Nat :=
  vintEncode fv.field ++ fv.value.serialize

/-- Decodes one `FieldValue`. -/
def FieldValue.deserialize (s : List Nat) : Option (FieldValue × List Nat) :=
  match vintDecode s with
  | none => none
  | some (field, s1) =>
    match Value.deserialize s1 with
    | none => none
    | some (value, rest) => some (⟨field, value⟩, rest)

/-- Decodes a counted sequence of field values
(`(0..num_field_values).map(|_| FieldValue::deserialize(reader)).collect()`). -/
def fieldValuesDecode : Nat → List Nat → Option (List FieldValue × List Nat)
  | 0, s => some ([], s)
  | n + 1, s =>
    match FieldValue.deserialize s with
    | none => none
    | some (fv, r) =>
      match fieldValuesDecode n r with
      | none => none
      | some (fvs, rest) => some (fv :: fvs, rest)

/-- `BinarySerializable for Document`, `serialize`:
`VInt(field_values.len())` followed by each field value in order. -/
def Document.serialize (d : Document) : List Nat :=
  vintEncode d.field_values.length ++
    (d.field_values.map FieldValue.serialize).flatten

/-- `BinarySerializable for Document`, `deserialize`: reads the `VInt`
count, then that many field values, in order. -/
def Document.deserialize (s : List Nat) : Option (Document × List Nat) :=
  match vintDecode s with
  | none => none
  | some (num_field_values, r) =>
    match fieldValuesDecode num_field_values r with
    | none => none
    | some (field_values, rest) => some (⟨field_values⟩, rest)

/-- The key order of `sort_by_key(|field_value| field_value.field())`:
comparison of field identifiers only. -/
def fvLe (a b : FieldValue) : Prop :=
  a.field ≤ b.field

instance : DecidableRel fvLe :=
  fun a b => inferInstanceAs (Decidable (a.field ≤ b.field))

instance : IsTotal FieldValue fvLe :=
  ⟨fun a b => Nat.le_total a.field b.field⟩

instance : IsTrans FieldValue fvLe :=
  ⟨fun _ _ _ => Nat.le_trans⟩

/-- The grouping loop of `get_sorted_field_values`, run over the sorted
pairs: a pair whose field equals `current_field` is pushed onto
`current_group`; a different field closes the current group and starts a
new one; the final group is pushed at the end. -/
def groupLoop (current_field : Nat) (current_group : List FieldValue) :
    List FieldValue → List (Nat × List FieldValue)
  | [] => [(current_field, current_group)]
  | field_value :: rest =>
    if field_value.field == current_field then
      groupLoop current_field (current_group ++ [field_value]) rest
    else
      (current_field, current_group) ::
        groupLoop field_value.field [field_value] rest

/-- `Document::get_sorted_field_values`: stable-sorts the pairs by field
identifier (Rust `sort_by_key` is a stable sort, modelled by insertion
sort, which is stable), then groups consecutive equal-field runs; an empty
document yields no groups. -/
def Document.get_sorted_field_values (d : Document) :
    List (Nat × List FieldValue) :=
  match List.insertionSort fvLe d.field_values with
  | [] => []
  | field_value :: rest => groupLoop field_value.field [field_value] rest

/-!
Prepared commit (`src/indexer/prepared_commit.rs`). The `IndexWriter`, its
`rollback`, and the segment updater's `schedule_commit` live outside
`src/`; they are modelled from the spec. The state threading is explicit:
`abort` returns the rolled-back writer, and `commit` takes the scheduler's
acknowledgement as an argument.
-/

/-- Modelled from the spec: the background scheduler's answer to a commit
request handoff — either the request was accepted into its queue, or the
queue cannot accept it (e.g. the scheduler has been shut down). -/
inductive SchedulerAck where
  | accepted
  | rejected
deriving DecidableEq, Repr

/-- Modelled from the spec: the crate error type, restricted to the variant
relevant to the commit protocol (`CommitRejected`: the scheduler handoff
failed). -/
inductive TantivyError where
  | commitRejected
deriving DecidableEq, Repr

/-- Modelled from the spec: the external `IndexWriter` state this core
touches — the opstamp of the last successfully committed state, the
writer's current opstamp frontier (the value `open` captures as the
commit's sequence point), and the opstamps of operations submitted but not
yet committed. -/
structure IndexWriter where
  committed_opstamp : Opstamp
  opstamp_frontier : Opstamp
  pending_opstamps : List Opstamp
deriving DecidableEq, Repr

/-- Modelled from the spec: `rollback_to_last_commit` — rolls the writer
back to the last successfully committed state by discarding the operations
submitted after that state; an in-memory manipulation that never fails
under normal operation. It reports the opstamp that was not committed:
the writer's current opstamp frontier. While a prepared commit is open,
that frontier is the very value `open` captured as the commit's sequence
point, and the exclusivity of the open handle prevents any later opstamp
assignment, so the reported frontier equals the open commit's opstamp. -/
def IndexWriter.rollback (w : IndexWriter) :
    Except TantivyError (Opstamp × IndexWriter) :=
  Except.ok (w.opstamp_frontier, { w with pending_opstamps := [] })

/-- `indexer::PreparedCommit`: exclusive handle on the writer, an optional
payload, and the commit's sequence-point opstamp. -/
structure PreparedCommit where
  index_writer : IndexWriter
  payload : Option (List Nat)
  opstamp : Opstamp
deriving DecidableEq, Repr

/-- `PreparedCommit::new(index_writer, opstamp)`: payload starts out
unset. -/
def PreparedCommit.new (index_writer : IndexWriter) (opstamp : Opstamp) :
    PreparedCommit :=
  ⟨index_writer, none, opstamp⟩

/-- `PreparedCommit::set_payload`: overwrites any previous payload. -/
def PreparedCommit.set_payload (pc : PreparedCommit) (payload : List Nat) :
    PreparedCommit :=
  { pc with payload := some payload }

/-- `PreparedCommit::abort`: `self.index_writer.rollback()`. -/
def PreparedCommit.abort (pc : PreparedCommit) :
    Except TantivyError (Opstamp × IndexWriter) :=
  pc.index_writer.rollback

/-- `PreparedCommit::commit`: the source binds and discards the scheduler
handoff result (`let _ = block_on(...schedule_commit(self.opstamp,
self.payload))`) and then returns `Ok(self.opstamp)` unconditionally. The
scheduler's acknowledgement is passed in explicitly to model the outcome
of the asynchronous handoff. -/
def PreparedCommit.commit (pc : PreparedCommit) (ack : SchedulerAck) :
    Except TantivyError Opstamp :=
  let _ := ack
  Except.ok pc.opstamp

/-! Round-trip lemmas: each decoder, run on the matching encoder's output
followed by an arbitrary rest of stream, returns the encoded value and that
rest. -/

theorem vintDecode_vintEncode (n : Nat) (rest : List Nat) :
    vintDecode (vintEncode n ++ rest) = some (n, rest) := by
  induction n using vintEncode.induct with
  | case1 n h =>
    rw [vintEncode]
    simp [h, vintDecode]
  | case2 n h ih =>
    rw [vintEncode]
    simp only [h, dite_false, List.cons_append, vintDecode]
    rw [if_neg (by omega), ih]
    simp only [Option.some.injEq, Prod.mk.injEq, and_true]
    omega

theorem readBytes_append (l rest : List Nat) :
    readBytes l.length (l ++ rest) = some (l, rest) := by
  induction l with
  | nil => rfl
  | cons b l ih => simp [readBytes, ih]

theorem bytesDecode_bytesEncode (bs rest : List Nat) :
    bytesDecode (bytesEncode bs ++ rest) = some (bs, rest) := by
  simp [bytesDecode, bytesEncode, vintDecode_vintEncode, readBytes_append]

theorem u64Decode_u64Encode (x : Fin (2 ^ 64)) (rest : List Nat) :
    u64Decode (u64Encode x ++ rest) = some (x, rest) := by
  have hx := x.isLt
  simp only [u64Encode, List.cons_append, List.nil_append, u64Decode,
    Option.some.injEq, Prod.mk.injEq, Fin.ext_iff, and_true]
  norm_num
  omega

theorem tokenDecode_tokenEncode (t : Token) (rest : List Nat) :
    Token.deserialize (Token.serialize t ++ rest) = some (t, rest) := by
  simp [Token.serialize, Token.deserialize, List.append_assoc,
    vintDecode_vintEncode, bytesDecode_bytesEncode]

theorem tokensDecode_encode (ts : List Token) (rest : List Nat) :
    tokensDecode ts.length ((ts.map Token.serialize).flatten ++ rest) =
      some (ts, rest) := by
  induction ts with
  | nil => rfl
  | cons t ts ih =>
    simp [tokensDecode, List.append_assoc, tokenDecode_tokenEncode, ih]

theorem valueDecode_valueEncode (v : Value) (rest : List Nat) :
    Value.deserialize (Value.serialize v ++ rest) = some (v, rest) := by
  cases v with
  | Str text =>
    simp [Value.serialize, Value.tag, Value.deserialize, bytesDecode_bytesEncode]
  | PreTokStr p =>
    simp [Value.serialize, Value.tag, Value.deserialize, List.append_assoc,
      bytesDecode_bytesEncode, vintDecode_vintEncode, tokensDecode_encode]
  | U64 x =>
    simp [Value.serialize, Value.tag, Value.deserialize, u64Decode_u64Encode]
  | I64 x =>
    simp [Value.serialize, Value.tag, Value.deserialize, u64Decode_u64Encode]
  | F64 x =>
    simp [Value.serialize, Value.tag, Value.deserialize, u64Decode_u64Encode]
  | Date x =>
    simp [Value.serialize, Value.tag, Value.deserialize, u64Decode_u64Encode]
  | Facet path =>
    simp [Value.serialize, Value.tag, Value.deserialize, bytesDecode_bytesEncode]
  | Bytes bs =>
    simp [Value.serialize, Value.tag, Value.deserialize, bytesDecode_bytesEncode]

theorem fieldValueDecode_encode (fv : FieldValue) (rest : List Nat) :
    FieldValue.deserialize (FieldValue.serialize fv ++ rest) = some (fv, rest) := by
  simp [FieldValue.serialize, FieldValue.deserialize, List.append_assoc,
    vintDecode_vintEncode, valueDecode_valueEncode]

theorem fieldValuesDecode_encode (fvs : List FieldValue) (rest : List Nat) :
    fieldValuesDecode fvs.length ((fvs.map FieldValue.serialize).flatten ++ rest) =
      some (fvs, rest) := by
  induction fvs with
  | nil => rfl
  | cons fv fvs ih =>
    simp [fieldValuesDecode, List.append_assoc, fieldValueDecode_encode, ih]

theorem documentDecode_documentEncode (d : Document) (rest : List Nat) :
    Document.deserialize (Document.serialize d ++ rest) = some (d, rest) := by
  simp [Document.serialize, Document.deserialize, List.append_assoc,
    vintDecode_vintEncode, fieldValuesDecode_encode]

/-! Consumption lemmas: a successful decode only consumes a prefix of the
input stream, leaving a suffix as the rest; decoders never look past the
bytes they consume. -/

theorem consumes_trans {s t u : List Nat} (h1 : ∃ p, s = p ++ t)
    (h2 : ∃ q, t = q ++ u) : ∃ r, s = r ++ u := by
  obtain ⟨p, hp⟩ := h1
  obtain ⟨q, hq⟩ := h2
  exact ⟨p ++ q, by rw [hp, hq, List.append_assoc]⟩

theorem vintDecode_consumes :
    ∀ {s : List Nat} {n : Nat} {rest : List Nat},
      vintDecode s = some (n, rest) → ∃ pre, s = pre ++ rest := by
  intro s
  induction s with
  | nil => intro n rest h; simp [vintDecode] at h
  | cons b s ih =>
    intro n rest h
    by_cases hb : b < 128
    · simp only [vintDecode, if_pos hb, Option.some.injEq, Prod.mk.injEq] at h
      exact ⟨[b], by simp [h.2]⟩
    · simp only [vintDecode, if_neg hb] at h
      cases hv : vintDecode s with
      | none => simp [hv] at h
      | some vr =>
        obtain ⟨v, r⟩ := vr
        simp only [hv, Option.some.injEq, Prod.mk.injEq] at h
        obtain ⟨pre, hpre⟩ := ih hv
        exact ⟨b :: pre, by simp [← h.2, hpre]⟩

theorem readBytes_consumes :
    ∀ {n : Nat} {s bs rest : List Nat},
      readBytes n s = some (bs, rest) → s = bs ++ rest := by
  intro n
  induction n with
  | zero =>
    intro s bs rest h
    simp only [readBytes, Option.some.injEq, Prod.mk.injEq] at h
    rw [← h.1, ← h.2]
    rfl
  | succ n ih =>
    intro s bs rest h
    cases s with
    | nil => simp [readBytes] at h
    | cons b s =>
      simp only [readBytes] at h
      cases hr : readBytes n s with
      | none => simp [hr] at h
      | some br =>
        obtain ⟨bs1, rest1⟩ := br
        simp only [hr, Option.some.injEq, Prod.mk.injEq] at h
        rw [← h.1, ← h.2]
        simp [ih hr]

theorem bytesDecode_consumes {s bs rest : List Nat}
    (h : bytesDecode s = some (bs, rest)) : ∃ pre, s = pre ++ rest := by
  simp only [bytesDecode] at h
  cases hv : vintDecode s with
  | none => simp [hv] at h
  | some nr =>
    obtain ⟨n, r⟩ := nr
    simp only [hv] at h
    exact consumes_trans (vintDecode_consumes hv) ⟨bs, readBytes_consumes h⟩

theorem u64Decode_consumes {s : List Nat} {x : Fin (2 ^ 64)} {rest : List Nat}
    (h : u64Decode s = some (x, rest)) : ∃ pre, s = pre ++ rest := by
  match s with
  | [] => simp [u64Decode] at h
  | [b0] => simp [u64Decode] at h
  | [b0, b1] => simp [u64Decode] at h
  | [b0, b1, b2] => simp [u64Decode] at h
  | [b0, b1, b2, b3] => simp [u64Decode] at h
  | [b0, b1, b2, b3, b4] => simp [u64Decode] at h
  | [b0, b1, b2, b3, b4, b5] => simp [u64Decode] at h
  | [b0, b1, b2, b3, b4, b5, b6] => simp [u64Decode] at h
  | b0 :: b1 :: b2 :: b3 :: b4 :: b5 :: b6 :: b7 :: s =>
    simp only [u64Decode, Option.some.injEq, Prod.mk.injEq] at h
    exact ⟨[b0, b1, b2, b3, b4, b5, b6, b7], by simp [h.2]⟩

theorem tokenDecode_consumes {s : List Nat} {t : Token} {rest : List Nat}
    (h : Token.deserialize s = some (t, rest)) : ∃ pre, s = pre ++ rest := by
  simp only [Token.deserialize] at h
  cases h1 : vintDecode s with
  | none => simp [h1] at h
  | some p1 =>
    obtain ⟨a1, s1⟩ := p1
    simp only [h1] at h
    cases h2 : vintDecode s1 with
    | none => simp [h2] at h
    | some p2 =>
      obtain ⟨a2, s2⟩ := p2
      simp only [h2] at h
      cases h3 : vintDecode s2 with
      | none => simp [h3] at h
      | some p3 =>
        obtain ⟨a3, s3⟩ := p3
        simp only [h3] at h
        cases h4 : bytesDecode s3 with
        | none => simp [h4] at h
        | some p4 =>
          obtain ⟨a4, s4⟩ := p4
          simp only [h4] at h
          cases h5 : vintDecode s4 with
          | none => simp [h5] at h
          | some p5 =>
            obtain ⟨a5, s5⟩ := p5
            simp only [h5, Option.some.injEq, Prod.mk.injEq] at h
            rw [← h.2]
            exact consumes_trans (vintDecode_consumes h1)
              (consumes_trans (vintDecode_consumes h2)
                (consumes_trans (vintDecode_consumes h3)
                  (consumes_trans (bytesDecode_consumes h4)
                    (vintDecode_consumes h5))))

theorem tokensDecode_consumes :
    ∀ {n : Nat} {s : List Nat} {ts : List Token} {rest : List Nat},
      tokensDecode n s = some (ts, rest) → ∃ pre, s = pre ++ rest := by
  intro n
  induction n with
  | zero =>
    intro s ts rest h
    simp only [tokensDecode, Option.some.injEq, Prod.mk.injEq] at h
    exact ⟨[], by simp [h.2]⟩
  | succ n ih =>
    intro s ts rest h
    simp only [tokensDecode] at h
    cases h1 : Token.deserialize s with
    | none => simp [h1] at h
    | some p1 =>
      obtain ⟨t, r⟩ := p1
      simp only [h1] at h
      cases h2 : tokensDecode n r with
      | none => simp [h2] at h
      | some p2 =>
        obtain ⟨ts1, rest1⟩ := p2
        simp only [h2, Option.some.injEq, Prod.mk.injEq] at h
        rw [← h.2]
        exact consumes_trans (tokenDecode_consumes h1) (ih h2)

theorem valueDecode_consumes {s : List Nat} {v : Value} {rest : List Nat}
    (h : Value.deserialize s = some (v, rest)) : ∃ pre, s = pre ++ rest := by
  match s with
  | [] => simp [Value.deserialize] at h
  | tag :: s =>
    have step : (∃ pre, s = pre ++ rest) → ∃ pre, tag :: s = pre ++ rest := by
      intro hp
      exact consumes_trans ⟨[tag], rfl⟩ hp
    simp only [Value.deserialize] at h
    split_ifs at h
    case pos =>
      cases h1 : bytesDecode s with
      | none => simp [h1] at h
      | some p =>
        obtain ⟨a, r⟩ := p
        simp only [h1, Option.some.injEq, Prod.mk.injEq] at h
        exact step (h.2 ▸ bytesDecode_consumes h1)
    case pos =>
      cases h1 : bytesDecode s with
      | none => simp [h1] at h
      | some p1 =>
        obtain ⟨a1, s1⟩ := p1
        simp only [h1] at h
        cases h2 : vintDecode s1 with
        | none => simp [h2] at h
        | some p2 =>
          obtain ⟨a2, s2⟩ := p2
          simp only [h2] at h
          cases h3 : tokensDecode a2 s2 with
          | none => simp [h3] at h
          | some p3 =>
            obtain ⟨a3, s3⟩ := p3
            simp only [h3, Option.some.injEq, Prod.mk.injEq] at h
            refine step (h.2 ▸ ?_)
            exact consumes_trans (bytesDecode_consumes h1)
              (consumes_trans (vintDecode_consumes h2) (tokensDecode_consumes h3))
    case pos =>
      cases h1 : u64Decode s with
      | none => simp [h1] at h
      | some p =>
        obtain ⟨a, r⟩ := p
        simp only [h1, Option.some.injEq, Prod.mk.injEq] at h
        exact step (h.2 ▸ u64Decode_consumes h1)
    case pos =>
      cases h1 : u64Decode s with
      | none => simp [h1] at h
      | some p =>
        obtain ⟨a, r⟩ := p
        simp only [h1, Option.some.injEq, Prod.mk.injEq] at h
        exact step (h.2 ▸ u64Decode_consumes h1)
    case pos =>
      cases h1 : u64Decode s with
      | none => simp [h1] at h
      | some p =>
        obtain ⟨a, r⟩ := p
        simp only [h1, Option.some.injEq, Prod.mk.injEq] at h
        exact step (h.2 ▸ u64Decode_consumes h1)
    case pos =>
      cases h1 : u64Decode s with
      | none => simp [h1] at h
      | some p =>
        obtain ⟨a, r⟩ := p
        simp only [h1, Option.some.injEq, Prod.mk.injEq] at h
        exact step (h.2 ▸ u64Decode_consumes h1)
    case pos =>
      cases h1 : bytesDecode s with
      | none => simp [h1] at h
      | some p =>
        obtain ⟨a, r⟩ := p
        simp only [h1, Option.some.injEq, Prod.mk.injEq] at h
        exact step (h.2 ▸ bytesDecode_consumes h1)
    case pos =>
      cases h1 : bytesDecode s with
      | none => simp [h1] at h
      | some p =>
        obtain ⟨a, r⟩ := p
        simp only [h1, Option.some.injEq, Prod.mk.injEq] at h
        exact step (h.2 ▸ bytesDecode_consumes h1)

theorem fieldValueDecode_consumes {s : List Nat} {fv : FieldValue}
    {rest : List Nat} (h : FieldValue.deserialize s = some (fv, rest)) :
    ∃ pre, s = pre ++ rest := by
  simp only [FieldValue.deserialize] at h
  cases h1 : vintDecode s with
  | none => simp [h1] at h
  | some p1 =>
    obtain ⟨a1, s1⟩ := p1
    simp only [h1] at h
    cases h2 : Value.deserialize s1 with
    | none => simp [h2] at h
    | some p2 =>
      obtain ⟨a2, s2⟩ := p2
      simp only [h2, Option.some.injEq, Prod.mk.injEq] at h
      exact h.2 ▸ consumes_trans (vintDecode_consumes h1) (valueDecode_consumes h2)

theorem fieldValuesDecode_consumes :
    ∀ {n : Nat} {s : List Nat} {fvs : List FieldValue} {rest : List Nat},
      fieldValuesDecode n s = some (fvs, rest) → ∃ pre, s = pre ++ rest := by
  intro n
  induction n with
  | zero =>
    intro s fvs rest h
    simp only [fieldValuesDecode, Option.some.injEq, Prod.mk.injEq] at h
    exact ⟨[], by simp [h.2]⟩
  | succ n ih =>
    intro s fvs rest h
    simp only [fieldValuesDecode] at h
    cases h1 : FieldValue.deserialize s with
    | none => simp [h1] at h
    | some p1 =>
      obtain ⟨fv, r⟩ := p1
      simp only [h1] at h
      cases h2 : fieldValuesDecode n r with
      | none => simp [h2] at h
      | some p2 =>
        obtain ⟨fvs1, rest1⟩ := p2
        simp only [h2, Option.some.injEq, Prod.mk.injEq] at h
        exact h.2 ▸ consumes_trans (fieldValueDecode_consumes h1) (ih h2)

theorem documentDecode_consumes {s : List Nat} {d : Document} {rest : List Nat}
    (h : Document.deserialize s = some (d, rest)) : ∃ pre, s = pre ++ rest := by
  simp only [Document.deserialize] at h
  cases h1 : vintDecode s with
  | none => simp [h1] at h
  | some p1 =>
    obtain ⟨n, r⟩ := p1
    simp only [h1] at h
    cases h2 : fieldValuesDecode n r with
    | none => simp [h2] at h
    | some p2 =>
      obtain ⟨fvs, rest1⟩ := p2
      simp only [h2, Option.some.injEq, Prod.mk.injEq] at h
      exact h.2 ▸ consumes_trans (vintDecode_consumes h1) (fieldValuesDecode_consumes h2)

/-! Sorting and grouping lemmas for `get_sorted_field_values`: insertion
sort (the model of the stable `sort_by_key`) preserves the subsequence of
pairs carrying any fixed field, and the grouping loop splits the sorted
list into nonempty runs with strictly increasing keys. -/

theorem orderedInsert_filter_field (a : FieldValue) (l : List FieldValue)
    (f : Nat) :
    (List.orderedInsert fvLe a l).filter (fun x => x.field == f) =
      if a.field == f then a :: l.filter (fun x => x.field == f)
      else l.filter (fun x => x.field == f) := by
  induction l with
  | nil =>
    by_cases haf : a.field == f <;>
      simp [List.orderedInsert, List.filter, haf]
  | cons b l ih =>
    simp only [List.orderedInsert]
    by_cases hab : fvLe a b
    · rw [if_pos hab]
      by_cases haf : a.field == f <;> simp [List.filter, haf]
    · rw [if_neg hab]
      by_cases hbf : b.field == f
      · by_cases haf : a.field == f
        · exfalso
          apply hab
          have h1 : a.field = f := by simpa using haf
          have h2 : b.field = f := by simpa using hbf
          show a.field ≤ b.field
          omega
        · simp [List.filter, hbf, haf, ih]
      · by_cases haf : a.field == f <;> simp [List.filter, hbf, haf, ih]

theorem insertionSort_filter_field (l : List FieldValue) (f : Nat) :
    (List.insertionSort fvLe l).filter (fun x => x.field == f) =
      l.filter (fun x => x.field == f) := by
  induction l with
  | nil => rfl
  | cons x l ih =>
    simp only [List.insertionSort, orderedInsert_filter_field, ih]
    by_cases hxf : x.field == f <;> simp [List.filter, hxf]

theorem groupLoop_flatten :
    ∀ (l : List FieldValue) (cur : Nat) (grp : List FieldValue),
      ((groupLoop cur grp l).map Prod.snd).flatten = grp ++ l := by
  intro l
  induction l with
  | nil => intro cur grp; simp [groupLoop]
  | cons fv l ih =>
    intro cur grp
    by_cases h : fv.field == cur <;> simp [groupLoop, h, ih]

theorem groupLoop_keys_le :
    ∀ (l : List FieldValue) (cur : Nat) (grp : List FieldValue),
      List.Pairwise fvLe l → (∀ x ∈ l, cur ≤ x.field) →
      ∀ k ∈ (groupLoop cur grp l).map Prod.fst, cur ≤ k := by
  intro l
  induction l with
  | nil =>
    intro cur grp _ _ k hk
    rw [groupLoop] at hk
    simp only [List.map_cons, List.map_nil, List.mem_singleton] at hk
    exact Nat.le_of_eq hk.symm
  | cons fv l ih =>
    intro cur grp hp hl k hk
    by_cases h : fv.field == cur
    · rw [groupLoop, if_pos h] at hk
      have hfc : fv.field = cur := by simpa using h
      refine ih cur (grp ++ [fv]) hp.of_cons ?_ k hk
      intro x hx
      have hx2 : fv.field ≤ x.field := List.rel_of_pairwise_cons hp hx
      omega
    · rw [groupLoop, if_neg h] at hk
      simp only [List.map_cons, List.mem_cons] at hk
      rcases hk with hk | hk
      · exact Nat.le_of_eq hk.symm
      · have h1 : fv.field ≤ k := by
          refine ih fv.field [fv] hp.of_cons ?_ k hk
          intro x hx
          exact List.rel_of_pairwise_cons hp hx
        have h2 : cur ≤ fv.field := hl fv (List.mem_cons_self fv l)
        omega

theorem groupLoop_keys_sorted :
    ∀ (l : List FieldValue) (cur : Nat) (grp : List FieldValue),
      List.Pairwise fvLe l → (∀ x ∈ l, cur ≤ x.field) →
      List.Pairwise (· < ·) ((groupLoop cur grp l).map Prod.fst) := by
  intro l
  induction l with
  | nil =>
    intro cur grp _ _
    rw [groupLoop]
    simp
  | cons fv l ih =>
    intro cur grp hp hl
    by_cases h : fv.field == cur
    · rw [groupLoop, if_pos h]
      have hfc : fv.field = cur := by simpa using h
      refine ih cur (grp ++ [fv]) hp.of_cons ?_
      intro x hx
      have hx2 : fv.field ≤ x.field := List.rel_of_pairwise_cons hp hx
      omega
    · rw [groupLoop, if_neg h]
      simp only [List.map_cons]
      have hrest : ∀ x ∈ l, fv.field ≤ x.field := by
        intro x hx
        exact List.rel_of_pairwise_cons hp hx
      refine List.Pairwise.cons ?_ (ih fv.field [fv] hp.of_cons hrest)
      intro k hk
      have h1 : fv.field ≤ k := groupLoop_keys_le l fv.field [fv] hp.of_cons hrest k hk
      have h2 : cur ≤ fv.field := hl fv (List.mem_cons_self fv l)
      have h3 : fv.field ≠ cur := by simpa using h
      omega

theorem groupLoop_groups :
    ∀ (l : List FieldValue) (cur : Nat) (grp : List FieldValue),
      grp ≠ [] → (∀ x ∈ grp, x.field = cur) →
      ∀ p ∈ groupLoop cur grp l, p.2 ≠ [] ∧ ∀ x ∈ p.2, x.field = p.1 := by
  intro l
  induction l with
  | nil =>
    intro cur grp hne hfields p hp
    rw [groupLoop] at hp
    simp only [List.mem_singleton] at hp
    subst hp
    exact ⟨hne, hfields⟩
  | cons fv l ih =>
    intro cur grp hne hfields p hp
    by_cases h : fv.field == cur
    · rw [groupLoop, if_pos h] at hp
      have hfc : fv.field = cur := by simpa using h
      refine ih cur (grp ++ [fv]) (by simp) ?_ p hp
      intro x hx
      rcases List.mem_append.mp hx with hx | hx
      · exact hfields x hx
      · simp only [List.mem_singleton] at hx
        exact hx ▸ hfc
    · rw [groupLoop, if_neg h] at hp
      rcases List.mem_cons.mp hp with hp | hp
      · subst hp
        exact ⟨hne, hfields⟩
      · refine ih fv.field [fv] (by simp) ?_ p hp
        intro x hx
        simp only [List.mem_singleton] at hx
        exact hx ▸ rfl

theorem get_sorted_filter (d : Document) (f : Nat) :
    ((d.get_sorted_field_values.map Prod.snd).flatten).filter
        (fun x => x.field == f) =
      d.field_values.filter (fun x => x.field == f) := by
  rw [Document.get_sorted_field_values]
  cases hsl : List.insertionSort fvLe d.field_values with
  | nil =>
    have hperm := List.perm_insertionSort fvLe d.field_values
    rw [hsl] at hperm
    have hnil : d.field_values = [] := hperm.symm.eq_nil
    simp [hnil]
  | cons fv rest =>
    have hflat := groupLoop_flatten rest fv.field [fv]
    have hfil := insertionSort_filter_field d.field_values f
    rw [hsl] at hfil
    simp only [hflat]
    simpa using hfil

theorem get_sorted_keys (d : Document) :
    List.Pairwise (· < ·) (d.get_sorted_field_values.map Prod.fst) := by
  rw [Document.get_sorted_field_values]
  cases hsl : List.insertionSort fvLe d.field_values with
  | nil => simp
  | cons fv rest =>
    have hp : List.Pairwise fvLe (fv :: rest) := by
      rw [← hsl]
      exact List.sorted_insertionSort fvLe d.field_values
    exact groupLoop_keys_sorted rest fv.field [fv] hp.of_cons
      (fun x hx => List.rel_of_pairwise_cons hp hx)

theorem get_sorted_groups (d : Document) (p : Nat × List FieldValue)
    (hp : p ∈ d.get_sorted_field_values) :
    p.2 ≠ [] ∧ ∀ x ∈ p.2, x.field = p.1 := by
  rw [Document.get_sorted_field_values] at hp
  cases hsl : List.insertionSort fvLe d.field_values with
  | nil => rw [hsl] at hp; simp at hp
  | cons fv rest =>
    rw [hsl] at hp
    refine groupLoop_groups rest fv.field [fv] (by simp) ?_ p hp
    intro x hx
    simp only [List.mem_singleton] at hx
    exact hx ▸ rfl

/-! The claims. -/

/-- Claim C1: for every Document, deserializing the bytes produced by
serializing it succeeds, consumes the whole buffer, yields a Document equal
to the original under order-insensitive multiset equality, and serializing
the decoded Document again produces bytes identical to the original
serialization. -/
theorem claim_C1 (d : Document) :
    ∃ decoded : Document,
      Document.deserialize (Document.serialize d) = some (decoded, []) ∧
      Document.equiv decoded d ∧
      Document.serialize decoded = Document.serialize d := by
  refine ⟨d, ?_, List.Perm.refl _, rfl⟩
  simpa using documentDecode_documentEncode d []

/-- Claim C2, counterexample: with the background scheduler rejecting the
handoff, `commit()` still returns success carrying the opstamp — the
claim that a `CommitRejected` error is surfaced is false on the code,
which discards the handoff result (`let _ = block_on(...)`). -/
theorem claim_C2_counterexample :
    PreparedCommit.commit (PreparedCommit.new ⟨4, 6, [5]⟩ 5)
        SchedulerAck.rejected = Except.ok 5 := rfl

/-- Claim C2 (amended): `commit()` returns `Ok` with the prepared commit's
opstamp regardless of the scheduler's acknowledgement; a handoff failure is
silently discarded, never surfaced to the caller. -/
theorem claim_C2_amended (pc : PreparedCommit) (ack : SchedulerAck) :
    pc.commit ack = Except.ok pc.opstamp := rfl

/-- Claim C3: `get_sorted_field_values()` stable-sorts the pairs by field
identifier and groups consecutive equal-field runs: for every Document, the
pairs carrying any fixed field appear across the groups exactly as in the
original list (stability), the group keys are strictly increasing, every
group is nonempty and holds exactly the pairs of its key; and on the
Document with fields [3, 1, 3, 2] the groups come keyed [1, 2, 3] with the
field-3 group in original relative order. -/
theorem claim_C3 :
    (∀ (d : Document) (f : Nat),
        ((d.get_sorted_field_values.map Prod.snd).flatten).filter
            (fun x => x.field == f) =
          d.field_values.filter (fun x => x.field == f)) ∧
    (∀ d : Document,
        List.Pairwise (· < ·) (d.get_sorted_field_values.map Prod.fst)) ∧
    (∀ (d : Document) (p : Nat × List FieldValue),
        p ∈ d.get_sorted_field_values → p.2 ≠ [] ∧ ∀ x ∈ p.2, x.field = p.1) ∧
    (Document.mk [⟨3, Value.U64 10⟩, ⟨1, Value.U64 11⟩, ⟨3, Value.U64 12⟩,
        ⟨2, Value.U64 13⟩]).get_sorted_field_values =
      [(1, [⟨1, Value.U64 11⟩]), (2, [⟨2, Value.U64 13⟩]),
       (3, [⟨3, Value.U64 10⟩, ⟨3, Value.U64 12⟩])] :=
  ⟨get_sorted_filter, get_sorted_keys,
    fun d p hp => get_sorted_groups d p hp, by decide⟩

/-- Claim C4: `prepare_for_store()` maps each entry in place: the field of
every entry is kept, a pre-tokenized-text value becomes the plain string
value carrying the same text, any other entry is untouched, and the number
of pairs (hence also their order, by the positional correspondence) is
unchanged. -/
theorem claim_C4 (d : Document) :
    List.Forall₂ (fun fv fv2 =>
        fv2.field = fv.field ∧
        (∀ p, fv.value = Value.PreTokStr p → fv2.value = Value.Str p.text) ∧
        (fv.value.isPreTokStr = false → fv2 = fv))
      d.field_values d.prepare_for_store.field_values ∧
    d.prepare_for_store.field_values.length = d.field_values.length := by
  constructor
  · simp only [Document.prepare_for_store]
    rw [List.forall₂_map_right_iff, List.forall₂_same]
    intro x hx
    cases hv : x.value
    case PreTokStr p => simp [hv, FieldValue.new, Value.isPreTokStr]
    all_goals simp [hv, Value.isPreTokStr]
  · simp [Document.prepare_for_store]

/-- Claim C5: `prepare_for_store()` is idempotent, and a Document holding
no pre-tokenized-text value is left unchanged. -/
theorem claim_C5 (d : Document) :
    d.prepare_for_store.prepare_for_store = d.prepare_for_store ∧
    ((∀ fv ∈ d.field_values, fv.value.isPreTokStr = false) →
      d.prepare_for_store = d) := by
  obtain ⟨l⟩ := d
  constructor
  · simp only [Document.prepare_for_store, Document.mk.injEq, List.map_map]
    apply List.map_congr_left
    intro x _
    cases hv : x.value
    case PreTokStr p => simp [Function.comp, hv, FieldValue.new]
    all_goals simp [Function.comp, hv]
  · intro hnp
    simp only [Document.prepare_for_store, Document.mk.injEq]
    conv_rhs => rw [← List.map_id l]
    apply List.map_congr_left
    intro x hx
    cases hv : x.value
    case PreTokStr p =>
      have h2 := hnp x hx
      rw [hv] at h2
      simp [Value.isPreTokStr] at h2
    all_goals simp [hv]

/-- Claim C6: Document deserialization is a total function of the byte
stream: concrete truncated inputs fail with a decoding error, and every
input either fails or decodes while consuming only a prefix of the buffer
(the rest it returns is a suffix) — it never panics and never reads out of
the buffer's bounds. -/
theorem claim_C6 :
    Document.deserialize [] = none ∧
    Document.deserialize [1] = none ∧
    ∀ s : List Nat,
      Document.deserialize s = none ∨
      ∃ d rest, Document.deserialize s = some (d, rest) ∧
        ∃ pre, s = pre ++ rest := by
  refine ⟨rfl, rfl, ?_⟩
  intro s
  cases h : Document.deserialize s with
  | none => exact Or.inl rfl
  | some p =>
    obtain ⟨d1, rest⟩ := p
    exact Or.inr ⟨d1, rest, rfl, documentDecode_consumes h⟩

/-- Claim C7: a Document whose field f carries exactly the values v1 and v2
(in that order) keeps both through `add` (appending any pair), through
`filter_fields` with a predicate accepting f, and through a
serialize/deserialize round trip; `get_all` returns them in the original
relative order throughout. -/
theorem claim_C7 (d : Document) (f : Nat) (v1 v2 : Value)
    (h : d.get_all f = [v1, v2]) :
    (∀ fv : FieldValue,
        (d.add fv).get_all f =
          [v1, v2] ++ (if fv.field == f then [fv.value] else [])) ∧
    (∀ p : Nat → Bool, p f = true →
        (d.filter_fields p).get_all f = [v1, v2]) ∧
    (∃ decoded : Document,
        Document.deserialize (Document.serialize d) = some (decoded, []) ∧
        decoded.get_all f = [v1, v2]) := by
  refine ⟨?_, ?_, d, by simpa using documentDecode_documentEncode d [], h⟩
  · intro fv
    rw [← h]
    simp only [Document.get_all, Document.add, List.filter_append,
      List.map_append]
    congr 1
    by_cases hf : fv.field == f <;> simp [List.filter, hf]
  · intro p hp
    rw [← h]
    simp only [Document.get_all, Document.filter_fields, List.filter_filter]
    congr 1
    apply List.filter_congr
    intro x _
    by_cases hx : x.field == f
    · have hxf : x.field = f := by simpa using hx
      simp [hx, hxf, hp]
    · simp [hx]

/-- Claim C7, witness: the round trip of the general theorem at a concrete
Document with two values on field 2 and the always-true predicate. -/
theorem claim_C7_witness :
    ((Document.mk [⟨2, Value.U64 1⟩, ⟨2, Value.U64 2⟩]).filter_fields
        (fun _ => true)).get_all 2 = [Value.U64 1, Value.U64 2] :=
  (claim_C7 (Document.mk [⟨2, Value.U64 1⟩, ⟨2, Value.U64 2⟩]) 2
      (Value.U64 1) (Value.U64 2) (by decide)).2.1 (fun _ => true) rfl

/-- Claim C8: while a prepared commit is open, its opstamp is the opstamp
frontier that `open` captured from the writer, and no later assignment can
move the frontier (exclusive access); under that protocol invariant,
`abort()` succeeds under normal operation and returns the opstamp of this
prepared commit — the opstamp that was not committed — alongside the
rolled-back writer. -/
theorem claim_C8 (pc : PreparedCommit)
    (h : pc.opstamp = pc.index_writer.opstamp_frontier) :
    pc.abort = Except.ok (pc.opstamp,
      { pc.index_writer with pending_opstamps := [] }) := by
  rw [h]
  rfl

/-- Claim C8, witness: a writer with committed state 4, frontier 5 and
pending operation 5; aborting the prepared commit opened at opstamp 5
succeeds and reports opstamp 5. -/
theorem claim_C8_witness :
    (PreparedCommit.new ⟨4, 5, [5]⟩ 5).abort = Except.ok (5, ⟨4, 5, []⟩) :=
  claim_C8 (PreparedCommit.new ⟨4, 5, [5]⟩ 5) rfl

/-- Claim C9: the empty Document has `len() = 0` and `is_empty() = true`,
serializes to exactly one zero-valued varint byte, and deserializing that
byte yields the empty Document with nothing left over. -/
theorem claim_C9 :
    Document.new.len = 0 ∧
    Document.new.is_empty = true ∧
    Document.serialize Document.new = [0] ∧
    Document.deserialize [0] = some (Document.new, []) := by
  refine ⟨rfl, rfl, ?_, rfl⟩
  simp [Document.serialize, Document.new, vintEncode]

/-- Claim C10: `get_first` always agrees with the head of `get_all`: it
returns the first element when `get_all` is nonempty and is `none` exactly
when `get_all` is empty. -/
theorem claim_C10 (d : Document) (f : Nat) :
    d.get_first f = (d.get_all f).head? := by
  simp only [Document.get_first, Document.get_all]
  induction d.field_values with
  | nil => rfl
  | cons fv l ih =>
    by_cases hf : fv.field == f
    · rw [@List.find?_cons_of_pos _ (fun x => x.field == f) fv l hf,
        @List.filter_cons_of_pos _ (fun x => x.field == f) fv l hf]
      simp
    · rw [@List.find?_cons_of_neg _ (fun x => x.field == f) fv l hf,
        @List.filter_cons_of_neg _ (fun x => x.field == f) fv l hf]
      exact ih
